import Mathlib

/-!
Verification of the parallel mergesort module GB_msort_1.c
(SuiteSparse:GraphBLAS, Source/GB_msort_1.c).

The module sorts an array A of 64-bit signed integers in ascending order
with a fork-join parallel mergesort.  We embed it shallowly: arrays become
lists of integers, the in-place routines become functions from the input
list(s) to the output list(s), and each fork-join task pair becomes the
pair of independent sub-computations whose disjoint output ranges are the
two halves of an appended list.  The embedding keeps the names of the C
functions.

External collaborators that are not part of this source file are modelled
from the spec and are marked as such in their doc comments:
- GB_qsort_1a: the external base-case sort (an in-place ascending
  comparison sort), modelled as insertion sort on the list of values;
- GB_BASECASE: the fixed base-case size threshold, modelled as a
  parameter bc together with the hypothesis 3 <= bc, which any realistic
  threshold satisfies (the actual library value is 64 * 1024).  For
  thresholds 0, 1 or 2 the C code itself fails to terminate on degenerate
  runs (for example two singleton runs with the threshold 2), so the
  bound 3 is exactly what makes the recursion well defined;
- the comparator GB_lt_1, which the spec fixes to plain less-than over
  signed 64-bit integers, embedded directly as the order on Int;
- the thread-count normalization GB_MSORT_NTHREADS and the query whether
  the caller already runs inside a parallel region, modelled as an
  abstract function norm : Int -> Int and an abstract flag inPar : Bool.
-/

/-- Sorted in non-decreasing order, the postcondition of the sort. -/
abbrev SortedLe (l : List Int) : Prop := List.Sorted (· ≤ ·) l

/-- Modelled from the spec: GB_qsort_1a, the external base-case sort used
for sub-arrays at or below the base-case threshold and for the fully
sequential path.  It is not part of this module; the spec requires an
in-place comparison sort into ascending order, which we model as
insertion sort on the list of values. -/
def GB_qsort_1a (A : List Int) : List Int :=
  A.insertionSort (· ≤ ·)

/-- GB_merge_sequential_1 (lines 20 to 59): merge two sorted lists with a
single thread.  While both inputs remain, take the Left element when it
is strictly smaller (GB_lt_1), otherwise the Right element; when either
input is exhausted, copy the rest of the other verbatim. -/
def GB_merge_sequential_1 : List Int → List Int → List Int
  | [], right => right
  | left, [] => left
  | x :: left, y :: right =>
    if x < y then x :: GB_merge_sequential_1 left (y :: right)
    else y :: GB_merge_sequential_1 (x :: left) right

/-- The binary-search loop of GB_merge_parallel_1 (lines 95 to 109):
starting from pleft = 0 and pright = nsmaller - 1, narrow the bracket
until pleft >= pright and return the final pair.  The C variables are
signed longs; pleft never goes below its starting value 0, so it is kept
as a natural number, while pright is kept as an integer because the
initial value is -1 when the smaller run is empty. -/
def GB_search (Smaller : List Int) (Pivot : Int) (pleft : Nat) (pright : Int) :
    Nat × Int :=
  if h : (pleft : Int) < pright then
    if Smaller.getD (((pleft : Int) + pright) / 2).toNat 0 < Pivot then
      GB_search Smaller Pivot ((((pleft : Int) + pright) / 2).toNat + 1) pright
    else
      GB_search Smaller Pivot pleft (((pleft : Int) + pright) / 2)
  else (pleft, pright)
termination_by (pright - (pleft : Int)).toNat
decreasing_by
  · omega
  · omega

/-- The pivot search of GB_merge_parallel_1 (lines 95 to 135): the
binary-search loop followed by the final adjustment step, returning the
split index pleft.  The adjustment fires when the pivot was not found and
pleft equals pright; it increments pleft when the probed entry is below
the pivot (the pright increment of the other branch does not change
pleft, which is the only value the caller uses). -/
def GB_split (Smaller : List Int) (Pivot : Int) : Nat :=
  let r := GB_search Smaller Pivot 0 ((Smaller.length : Int) - 1)
  if (r.1 : Int) = r.2 ∧ Smaller.getD r.1 0 = Pivot then r.1
  else if (r.1 : Int) = r.2 then
    (if Smaller.getD r.1 0 < Pivot then r.1 + 1 else r.1)
  else r.1

/-- Line 261: n12 = n / 2. -/
def GB_n12 (n : Nat) : Nat := n / 2

/-- Line 262: n34 = n - n12. -/
def GB_n34 (n : Nat) : Nat := n - GB_n12 n

/-- Line 264: n1 = n12 / 2. -/
def GB_n1 (n : Nat) : Nat := GB_n12 n / 2

/-- Line 265: n2 = n12 - n1. -/
def GB_n2 (n : Nat) : Nat := GB_n12 n - GB_n1 n

/-- Line 267: n3 = n34 / 2. -/
def GB_n3 (n : Nat) : Nat := GB_n34 n / 2

/-- Line 268: n4 = n34 - n3. -/
def GB_n4 (n : Nat) : Nat := GB_n34 n - GB_n3 n

/-- Line 270: n123 = n12 + n3, the start of the fourth quarter. -/
def GB_n123 (n : Nat) : Nat := GB_n12 n + GB_n3 n

mutual

/-- GB_merge_parallel_1 (lines 69 to 186): split the bigger sorted run at
its midpoint nhalf = nbigger / 2, read the pivot Bigger[nhalf], find the
matching split index pleft of the smaller run with the pivot search, and
merge the two resulting pairs as two tasks whose outputs are the two
disjoint halves S[0 .. nhalf+pleft) and S[nhalf+pleft .. n) of the
output; each task goes through GB_merge_select_1. -/
def GB_merge_parallel_1 (bc : Nat) (hbc : 3 ≤ bc)
    (Bigger Smaller : List Int) : List Int :=
  GB_merge_select_1 bc hbc
      (Bigger.take (Bigger.length / 2))
      (Smaller.take (GB_split Smaller (Bigger.getD (Bigger.length / 2) 0))) ++
    GB_merge_select_1 bc hbc
      (Bigger.drop (Bigger.length / 2))
      (Smaller.drop (GB_split Smaller (Bigger.getD (Bigger.length / 2) 0)))
termination_by
  4 * (Bigger.length + Smaller.length) + (if 2 ≤ Bigger.length then 0 else 3)
decreasing_by
  · simp only [List.length_take, List.length_drop]
    split_ifs <;> omega
  · simp only [List.length_take, List.length_drop]
    split_ifs <;> omega

/-- GB_merge_select_1 (lines 197 to 222): sequential merge when the
combined length is below the base-case threshold, else parallel merge
with the longer run passed first. -/
def GB_merge_select_1 (bc : Nat) (hbc : 3 ≤ bc)
    (Left Right : List Int) : List Int :=
  if _h : Left.length + Right.length < bc then
    GB_merge_sequential_1 Left Right
  else if _h2 : Right.length ≤ Left.length then
    GB_merge_parallel_1 bc hbc Left Right
  else
    GB_merge_parallel_1 bc hbc Right Left
termination_by 4 * (Left.length + Right.length) + 2
decreasing_by
  · split_ifs <;> omega
  · split_ifs <;> omega

end

/-- GB_mergesort_1 (lines 232 to 318): when n <= GB_BASECASE, delegate to
the external base-case sort in place (the workspace is untouched);
otherwise split A into the four quarters of the fixed halving rule, sort
each quarter in place (four tasks), merge quarter pairs into the two
halves of the workspace W (two tasks), and merge the two halves of W back
into A.  The result pair is (final A, final W). -/
def GB_mergesort_1 (bc : Nat) (hbc : 3 ≤ bc) (A W : List Int) :
    List Int × List Int :=
  if _h : A.length ≤ bc then (GB_qsort_1a A, W)
  else
    let n := A.length
    let s1 := (GB_mergesort_1 bc hbc
      (A.take (GB_n1 n)) (W.take (GB_n1 n))).1
    let s2 := (GB_mergesort_1 bc hbc
      ((A.drop (GB_n1 n)).take (GB_n2 n)) ((W.drop (GB_n1 n)).take (GB_n2 n))).1
    let s3 := (GB_mergesort_1 bc hbc
      ((A.drop (GB_n12 n)).take (GB_n3 n)) ((W.drop (GB_n12 n)).take (GB_n3 n))).1
    let s4 := (GB_mergesort_1 bc hbc
      (A.drop (GB_n123 n)) (W.drop (GB_n123 n))).1
    let w12 := GB_merge_select_1 bc hbc s1 s2
    let w34 := GB_merge_select_1 bc hbc s3 s4
    (GB_merge_select_1 bc hbc w12 w34, w12 ++ w34)
termination_by A.length
decreasing_by
  · simp only [List.length_take, GB_n1, GB_n12]
    omega
  · simp only [List.length_take, List.length_drop, GB_n2, GB_n1, GB_n12]
    omega
  · simp only [List.length_take, List.length_drop, GB_n3, GB_n34, GB_n12]
    omega
  · simp only [List.length_drop, GB_n123, GB_n12, GB_n3, GB_n34]
    omega

/-- GB_msort_1 (lines 325 to 380), the gateway: normalize the requested
thread count (norm models the external GB_MSORT_NTHREADS); when the
normalized count exceeds 1, run the parallel mergesort, either directly
when already inside a parallel region or inside a freshly opened one
(inPar models the external region query; both branches perform the same
GB_mergesort_1 call); otherwise sort sequentially with the external
base-case sort, leaving the workspace untouched. -/
def GB_msort_1 (bc : Nat) (hbc : 3 ≤ bc) (norm : Int → Int) (inPar : Bool)
    (A W : List Int) (nthreads : Int) : List Int × List Int :=
  if 1 < norm nthreads then
    if inPar then GB_mergesort_1 bc hbc A W else GB_mergesort_1 bc hbc A W
  else (GB_qsort_1a A, W)

/-! ### General helper lemmas -/

/-- Appending two sorted lists whose elements are pairwise ordered across
the boundary gives a sorted list. -/
theorem sortedLe_append {l₁ l₂ : List Int} (h₁ : SortedLe l₁) (h₂ : SortedLe l₂)
    (h : ∀ a ∈ l₁, ∀ b ∈ l₂, a ≤ b) : SortedLe (l₁ ++ l₂) :=
  List.pairwise_append.mpr ⟨h₁, h₂, h⟩

/-- In a sorted list, every element of the prefix is at most every element
of the matching suffix. -/
theorem sortedLe_take_drop_cross {S : List Int} (hs : SortedLe S) (k : Nat) :
    ∀ a ∈ S.take k, ∀ b ∈ S.drop k, a ≤ b :=
  (List.pairwise_append.mp (by rw [List.take_append_drop]; exact hs)).2.2

/-- Transfer an index-wise property of the first k positions to the
members of the prefix of length k. -/
theorem mem_take_prop {S : List Int} {k : Nat} {P : Int → Prop}
    (h : ∀ i : Nat, i < k → i < S.length → P (S.getD i 0)) :
    ∀ a ∈ S.take k, P a := by
  intro a ha
  obtain ⟨i, hi, rfl⟩ := List.mem_iff_getElem.mp ha
  have hlen : i < k ∧ i < S.length := by
    have := hi
    simp only [List.length_take] at this
    omega
  rw [List.getElem_take]
  rw [← List.getD_eq_getElem S 0 hlen.2]
  exact h i hlen.1 hlen.2

/-- Transfer an index-wise property of the positions from k on to the
members of the suffix starting at k. -/
theorem mem_drop_prop {S : List Int} {k : Nat} {P : Int → Prop}
    (h : ∀ i : Nat, k ≤ i → i < S.length → P (S.getD i 0)) :
    ∀ a ∈ S.drop k, P a := by
  intro a ha
  obtain ⟨i, hi, rfl⟩ := List.mem_iff_getElem.mp ha
  have hlen : k + i < S.length := by
    have := hi
    simp only [List.length_drop] at this
    omega
  rw [List.getElem_drop]
  rw [← List.getD_eq_getElem S 0 hlen]
  exact h (k + i) (by omega) hlen

/-- Exchanging the middle two blocks of a four-block append is a
permutation. -/
theorem append_swap_perm (a b c d : List Int) :
    ((a ++ b) ++ (c ++ d)).Perm ((a ++ c) ++ (b ++ d)) :=
  List.perm_iff_count.mpr (fun x => by simp only [List.count_append]; ring)

/-! ### Properties of the sequential merge -/

theorem GB_merge_sequential_1_perm (L R : List Int) :
    (GB_merge_sequential_1 L R).Perm (L ++ R) := by
  induction L, R using GB_merge_sequential_1.induct with
  | case1 R => simp [GB_merge_sequential_1]
  | case2 L h => simp [GB_merge_sequential_1]
  | case3 x L y R h ih =>
    rw [GB_merge_sequential_1, if_pos h]
    exact ih.cons x
  | case4 x L y R h ih =>
    rw [GB_merge_sequential_1, if_neg h]
    exact (ih.cons y).trans List.perm_middle.symm

theorem GB_merge_sequential_1_mem {a : Int} {L R : List Int} :
    a ∈ GB_merge_sequential_1 L R ↔ a ∈ L ∨ a ∈ R := by
  rw [(GB_merge_sequential_1_perm L R).mem_iff, List.mem_append]

theorem GB_merge_sequential_1_sorted (L R : List Int)
    (hL : SortedLe L) (hR : SortedLe R) :
    SortedLe (GB_merge_sequential_1 L R) := by
  induction L, R using GB_merge_sequential_1.induct with
  | case1 R => simpa [GB_merge_sequential_1] using hR
  | case2 L h => simpa [GB_merge_sequential_1] using hL
  | case3 x L y R h ih =>
    rw [GB_merge_sequential_1, if_pos h]
    obtain ⟨hx, hL2⟩ := List.sorted_cons.mp hL
    refine List.sorted_cons.mpr ⟨?_, ih hL2 hR⟩
    intro b hb
    rcases GB_merge_sequential_1_mem.mp hb with hb | hb
    · exact hx b hb
    · rcases List.mem_cons.mp hb with rfl | hb
      · exact le_of_lt h
      · exact le_trans (le_of_lt h) (List.rel_of_sorted_cons hR b hb)
  | case4 x L y R h ih =>
    rw [GB_merge_sequential_1, if_neg h]
    obtain ⟨hy, hR2⟩ := List.sorted_cons.mp hR
    refine List.sorted_cons.mpr ⟨?_, ih hL hR2⟩
    intro b hb
    rcases GB_merge_sequential_1_mem.mp hb with hb | hb
    · rcases List.mem_cons.mp hb with rfl | hb
      · exact le_of_not_lt h
      · exact le_trans (le_of_not_lt h) (List.rel_of_sorted_cons hL b hb)
    · exact hy b hb

theorem GB_merge_sequential_1_length (L R : List Int) :
    (GB_merge_sequential_1 L R).length = L.length + R.length := by
  simpa using (GB_merge_sequential_1_perm L R).length_eq

/-! ### Properties of the pivot binary search and split -/

theorem sortedLe_getD_mono {S : List Int} (hs : SortedLe S) {i j : Nat}
    (hij : i ≤ j) (hj : j < S.length) : S.getD i 0 ≤ S.getD j 0 := by
  rcases Nat.eq_or_lt_of_le hij with rfl | hlt
  · exact le_refl _
  · rw [List.getD_eq_getElem _ _ (lt_of_le_of_lt hij hj), List.getD_eq_getElem _ _ hj]
    exact List.pairwise_iff_getElem.mp hs i j (lt_of_le_of_lt hij hj) hj hlt

theorem GB_search_exit (S : List Int) (p : Int) (pl : Nat) (pr : Int) :
    (pl : Int) ≤ pr + 1 →
    pl ≤ (GB_search S p pl pr).1 ∧ (GB_search S p pl pr).2 ≤ pr ∧
      (((GB_search S p pl pr).1 : Int) = (GB_search S p pl pr).2 ∨
       ((GB_search S p pl pr).1 : Int) = (GB_search S p pl pr).2 + 1) := by
  induction pl, pr using GB_search.induct S p with
  | case1 pl pr h hlt ih =>
    intro hpre
    rw [GB_search, dif_pos h, if_pos hlt]
    have := ih (by omega)
    omega
  | case2 pl pr h hlt ih =>
    intro hpre
    rw [GB_search, dif_pos h, if_neg hlt]
    have := ih (by omega)
    omega
  | case3 pl pr h =>
    intro hpre
    rw [GB_search, dif_neg h]
    simp only
    omega

theorem GB_search_inv (S : List Int) (p : Int) (hs : SortedLe S) (pl : Nat) (pr : Int) :
    pr ≤ (S.length : Int) - 1 →
    (∀ i : Nat, i < pl → i < S.length → S.getD i 0 < p) →
    (∀ i : Nat, pr < (i : Int) → i < S.length → p ≤ S.getD i 0) →
    (∀ i : Nat, i < (GB_search S p pl pr).1 → i < S.length → S.getD i 0 < p) ∧
      (∀ i : Nat, (GB_search S p pl pr).2 < (i : Int) → i < S.length → p ≤ S.getD i 0) := by
  induction pl, pr using GB_search.induct S p with
  | case1 pl pr h hlt ih =>
    intro hpr hinv1 hinv2
    rw [GB_search, dif_pos h, if_pos hlt]
    refine ih hpr ?_ hinv2
    intro i hi hilen
    calc S.getD i 0 ≤ S.getD (((pl : Int) + pr) / 2).toNat 0 :=
          sortedLe_getD_mono hs (by omega) (by omega)
      _ < p := hlt
  | case2 pl pr h hlt ih =>
    intro hpr hinv1 hinv2
    rw [GB_search, dif_pos h, if_neg hlt]
    refine ih (by omega) hinv1 ?_
    intro i hi hilen
    calc p ≤ S.getD (((pl : Int) + pr) / 2).toNat 0 := le_of_not_lt hlt
      _ ≤ S.getD i 0 := sortedLe_getD_mono hs (by omega) hilen
  | case3 pl pr h =>
    intro hpr hinv1 hinv2
    rw [GB_search, dif_neg h]
    exact ⟨hinv1, hinv2⟩

theorem GB_split_le (S : List Int) (p : Int) : GB_split S p ≤ S.length := by
  have h := GB_search_exit S p 0 ((S.length : Int) - 1) (by omega)
  unfold GB_split
  dsimp only
  split_ifs <;> omega

theorem GB_split_nil (S : List Int) (p : Int) (h0 : S.length = 0) : GB_split S p = 0 := by
  have h := GB_search_exit S p 0 ((S.length : Int) - 1) (by omega)
  unfold GB_split
  dsimp only
  split_ifs <;> omega

theorem GB_split_spec (S : List Int) (p : Int) (hs : SortedLe S) :
    (∀ i : Nat, i < GB_split S p → S.getD i 0 < p) ∧
      (∀ i : Nat, GB_split S p ≤ i → i < S.length → p ≤ S.getD i 0) := by
  have hle := GB_split_le S p
  have hexit := GB_search_exit S p 0 ((S.length : Int) - 1) (by omega)
  have hinv := GB_search_inv S p hs 0 ((S.length : Int) - 1) (by omega)
    (by intro i hi hilen; omega)
    (by intro i hi hilen; omega)
  revert hle
  unfold GB_split
  dsimp only
  split_ifs with c1 c2 c3
  · -- found: k = r.1 and S[r.1] = p
    intro hle
    refine ⟨fun i hi => hinv.1 i hi (by omega), fun i hik hilen => ?_⟩
    rcases Nat.eq_or_lt_of_le hik with rfl | hgt
    · exact le_of_eq c1.2.symm
    · exact hinv.2 i (by omega) hilen
  · -- not found, r.1 = r.2, S[r.1] < p : k = r.1 + 1
    intro hle
    refine ⟨fun i hi => ?_, fun i hik hilen => hinv.2 i (by omega) hilen⟩
    have hilen : i < S.length := by omega
    rcases Nat.eq_or_lt_of_le (Nat.le_of_lt_succ hi) with rfl | hlt
    · exact c3
    · exact hinv.1 i hlt hilen
  · -- not found, r.1 = r.2, not (S[r.1] < p) : k = r.1
    intro hle
    refine ⟨fun i hi => hinv.1 i hi (by omega), fun i hik hilen => ?_⟩
    rcases Nat.eq_or_lt_of_le hik with rfl | hgt
    · exact le_of_not_lt c3
    · exact hinv.2 i (by omega) hilen
  · -- r.1 = r.2 + 1 : k = r.1
    intro hle
    refine ⟨fun i hi => hinv.1 i hi (by omega), fun i hik hilen => hinv.2 i (by omega) hilen⟩

/-! ### Branch equations of the merge dispatch -/

/-- Below the threshold, GB_merge_select_1 is the sequential merge. -/
theorem GB_merge_select_1_seq (bc : Nat) (hbc : 3 ≤ bc) (L R : List Int)
    (h : L.length + R.length < bc) :
    GB_merge_select_1 bc hbc L R = GB_merge_sequential_1 L R := by
  unfold GB_merge_select_1
  rw [dif_pos h]

/-- At or above the threshold with Left at least as long, GB_merge_select_1
is the parallel merge with Left passed as the bigger run. -/
theorem GB_merge_select_1_par1 (bc : Nat) (hbc : 3 ≤ bc) (L R : List Int)
    (h : ¬ (L.length + R.length < bc)) (h2 : R.length ≤ L.length) :
    GB_merge_select_1 bc hbc L R = GB_merge_parallel_1 bc hbc L R := by
  unfold GB_merge_select_1
  rw [dif_neg h, dif_pos h2]

/-- At or above the threshold with Right strictly longer, GB_merge_select_1
is the parallel merge with the two runs swapped. -/
theorem GB_merge_select_1_par2 (bc : Nat) (hbc : 3 ≤ bc) (L R : List Int)
    (h : ¬ (L.length + R.length < bc)) (h2 : ¬ (R.length ≤ L.length)) :
    GB_merge_select_1 bc hbc L R = GB_merge_parallel_1 bc hbc R L := by
  unfold GB_merge_select_1
  rw [dif_neg h, dif_neg h2]

/-- One-step unfolding of the parallel merge into its two sub-merges. -/
theorem GB_merge_parallel_1_eq (bc : Nat) (hbc : 3 ≤ bc) (B S : List Int) :
    GB_merge_parallel_1 bc hbc B S =
      GB_merge_select_1 bc hbc
          (B.take (B.length / 2))
          (S.take (GB_split S (B.getD (B.length / 2) 0))) ++
        GB_merge_select_1 bc hbc
          (B.drop (B.length / 2))
          (S.drop (GB_split S (B.getD (B.length / 2) 0))) := by
  unfold GB_merge_parallel_1
  rfl

/-! ### Correctness of the parallel merge and the dispatch -/

/-- Joint correctness of GB_merge_parallel_1 and GB_merge_select_1 by
strong induction on the termination measure: on sorted inputs both
produce a sorted permutation of the concatenation of the two runs. -/
theorem GB_merge_aux (k : Nat) : ∀ (bc : Nat) (hbc : 3 ≤ bc),
    (∀ B S : List Int,
      4 * (B.length + S.length) + (if 2 ≤ B.length then 0 else 3) ≤ k →
      SortedLe B → SortedLe S →
      (GB_merge_parallel_1 bc hbc B S).Perm (B ++ S) ∧
        SortedLe (GB_merge_parallel_1 bc hbc B S)) ∧
    (∀ L R : List Int,
      4 * (L.length + R.length) + 2 ≤ k →
      SortedLe L → SortedLe R →
      (GB_merge_select_1 bc hbc L R).Perm (L ++ R) ∧
        SortedLe (GB_merge_select_1 bc hbc L R)) := by
  induction k with
  | zero =>
    intro bc hbc
    exact ⟨fun B S hk _ _ => absurd hk (by split_ifs <;> omega),
      fun L R hk _ _ => absurd hk (by omega)⟩
  | succ k ih =>
    intro bc hbc
    have ihp := (ih bc hbc).1
    have ihs := (ih bc hbc).2
    constructor
    · -- parallel merge
      intro B S hk hB hS
      rw [GB_merge_parallel_1_eq]
      set nhalf := B.length / 2 with hnhalf
      set p := B.getD nhalf 0 with hp
      set pk := GB_split S p with hpk
      have hpkle : pk ≤ S.length := GB_split_le S p
      have hBtake : SortedLe (B.take nhalf) :=
        List.Pairwise.sublist (List.take_sublist nhalf B) hB
      have hBdrop : SortedLe (B.drop nhalf) :=
        List.Pairwise.sublist (List.drop_sublist nhalf B) hB
      have hStake : SortedLe (S.take pk) :=
        List.Pairwise.sublist (List.take_sublist pk S) hS
      have hSdrop : SortedLe (S.drop pk) :=
        List.Pairwise.sublist (List.drop_sublist pk S) hS
      have sub1 := ihs (B.take nhalf) (S.take pk)
        (by
          simp only [List.length_take]
          split_ifs at hk <;> omega) hBtake hStake
      have sub2 := ihs (B.drop nhalf) (S.drop pk)
        (by
          simp only [List.length_drop]
          split_ifs at hk <;> omega) hBdrop hSdrop
      constructor
      · refine (sub1.1.append sub2.1).trans ?_
        refine (append_swap_perm _ _ _ _).trans ?_
        rw [List.take_append_drop, List.take_append_drop]
      · refine sortedLe_append sub1.2 sub2.2 ?_
        intro a ha b hb
        have ha2 : a ∈ B.take nhalf ++ S.take pk := sub1.1.mem_iff.mp ha
        have hb2 : b ∈ B.drop nhalf ++ S.drop pk := sub2.1.mem_iff.mp hb
        have hSlow : ∀ x ∈ S.take pk, x < p :=
          mem_take_prop (fun i hik _ => (GB_split_spec S p hS).1 i hik)
        have hShigh : ∀ x ∈ S.drop pk, p ≤ x :=
          mem_drop_prop (fun i hik hilen => (GB_split_spec S p hS).2 i hik hilen)
        rcases List.mem_append.mp ha2 with haB | haS
        · rcases List.mem_append.mp hb2 with hbB | hbS
          · exact sortedLe_take_drop_cross hB nhalf a haB b hbB
          · -- a in the low half of Bigger, b in the high part of Smaller
            by_cases hB0 : B.length = 0
            · rw [List.length_eq_zero.mp hB0] at haB
              simp at haB
            · have hhalf : nhalf < B.length := by omega
              have ha3 : a ≤ p :=
                @mem_take_prop B nhalf (fun x => x ≤ p)
                  (fun i hik hilen => by
                    rw [hp]
                    exact sortedLe_getD_mono hB (by omega) hhalf) a haB
              exact le_trans ha3 (hShigh b hbS)
        · rcases List.mem_append.mp hb2 with hbB | hbS
          · -- a in the low part of Smaller, b in the high half of Bigger
            by_cases hB0 : B.length = 0
            · rw [List.length_eq_zero.mp hB0] at hbB
              simp at hbB
            · have hhalf : nhalf < B.length := by omega
              have hb3 : p ≤ b :=
                @mem_drop_prop B nhalf (fun x => p ≤ x)
                  (fun i hik hilen => by
                    rw [hp]
                    exact sortedLe_getD_mono hB hik hilen) b hbB
              exact le_trans (le_of_lt (hSlow a haS)) hb3
          · exact sortedLe_take_drop_cross hS pk a haS b hbS
    · -- merge dispatch
      intro L R hk hL hR
      by_cases h : L.length + R.length < bc
      · rw [GB_merge_select_1_seq bc hbc L R h]
        exact ⟨GB_merge_sequential_1_perm L R,
          GB_merge_sequential_1_sorted L R hL hR⟩
      · by_cases h2 : R.length ≤ L.length
        · rw [GB_merge_select_1_par1 bc hbc L R h h2]
          exact ihp L R (by split_ifs <;> omega) hL hR
        · rw [GB_merge_select_1_par2 bc hbc L R h h2]
          have hpar := ihp R L (by split_ifs <;> omega) hR hL
          exact ⟨hpar.1.trans List.perm_append_comm, hpar.2⟩

/-- On sorted inputs, the merge dispatch produces a sorted permutation of
the two runs appended. -/
theorem GB_merge_select_1_correct (bc : Nat) (hbc : 3 ≤ bc) (L R : List Int)
    (hL : SortedLe L) (hR : SortedLe R) :
    (GB_merge_select_1 bc hbc L R).Perm (L ++ R) ∧
      SortedLe (GB_merge_select_1 bc hbc L R) :=
  (GB_merge_aux (4 * (L.length + R.length) + 2) bc hbc).2 L R le_rfl hL hR

/-- On sorted inputs, the parallel merge produces a sorted permutation of
the two runs appended, with no precondition on the relative lengths. -/
theorem GB_merge_parallel_1_correct (bc : Nat) (hbc : 3 ≤ bc) (B S : List Int)
    (hB : SortedLe B) (hS : SortedLe S) :
    (GB_merge_parallel_1 bc hbc B S).Perm (B ++ S) ∧
      SortedLe (GB_merge_parallel_1 bc hbc B S) :=
  (GB_merge_aux (4 * (B.length + S.length) + 3) bc hbc).1 B S
    (by split_ifs <;> omega) hB hS

/-! ### Correctness of the recursive sort and the gateway -/

/-- The base-case sort produces a permutation of its input. -/
theorem GB_qsort_1a_perm (A : List Int) : (GB_qsort_1a A).Perm A :=
  List.perm_insertionSort _ A

/-- The base-case sort produces a sorted list. -/
theorem GB_qsort_1a_sorted (A : List Int) : SortedLe (GB_qsort_1a A) :=
  List.sorted_insertionSort _ A

/-- At or below the threshold, GB_mergesort_1 delegates to the base-case
sort and leaves the workspace unchanged. -/
theorem GB_mergesort_1_base (bc : Nat) (hbc : 3 ≤ bc) (A W : List Int)
    (h : A.length ≤ bc) :
    GB_mergesort_1 bc hbc A W = (GB_qsort_1a A, W) := by
  unfold GB_mergesort_1
  rw [dif_pos h]

/-- Above the threshold, GB_mergesort_1 performs the four-quarter
decomposition: sort the quarters, merge the two quarter pairs into the
two halves of the workspace, and merge the halves back into the array. -/
theorem GB_mergesort_1_rec (bc : Nat) (hbc : 3 ≤ bc) (A W : List Int)
    (h : ¬ (A.length ≤ bc)) :
    GB_mergesort_1 bc hbc A W =
      (GB_merge_select_1 bc hbc
          (GB_merge_select_1 bc hbc
            (GB_mergesort_1 bc hbc
              (A.take (GB_n1 A.length)) (W.take (GB_n1 A.length))).1
            (GB_mergesort_1 bc hbc
              ((A.drop (GB_n1 A.length)).take (GB_n2 A.length))
              ((W.drop (GB_n1 A.length)).take (GB_n2 A.length))).1)
          (GB_merge_select_1 bc hbc
            (GB_mergesort_1 bc hbc
              ((A.drop (GB_n12 A.length)).take (GB_n3 A.length))
              ((W.drop (GB_n12 A.length)).take (GB_n3 A.length))).1
            (GB_mergesort_1 bc hbc
              (A.drop (GB_n123 A.length)) (W.drop (GB_n123 A.length))).1),
        GB_merge_select_1 bc hbc
            (GB_mergesort_1 bc hbc
              (A.take (GB_n1 A.length)) (W.take (GB_n1 A.length))).1
            (GB_mergesort_1 bc hbc
              ((A.drop (GB_n1 A.length)).take (GB_n2 A.length))
              ((W.drop (GB_n1 A.length)).take (GB_n2 A.length))).1 ++
          GB_merge_select_1 bc hbc
            (GB_mergesort_1 bc hbc
              ((A.drop (GB_n12 A.length)).take (GB_n3 A.length))
              ((W.drop (GB_n12 A.length)).take (GB_n3 A.length))).1
            (GB_mergesort_1 bc hbc
              (A.drop (GB_n123 A.length)) (W.drop (GB_n123 A.length))).1) := by
  rw [GB_mergesort_1.eq_def, dif_neg h]

/-- The four quarters of the fixed halving rule reassemble the array. -/
theorem quarters_append (A : List Int) :
    (A.take (GB_n1 A.length) ++ (A.drop (GB_n1 A.length)).take (GB_n2 A.length)) ++
      ((A.drop (GB_n12 A.length)).take (GB_n3 A.length) ++
        A.drop (GB_n123 A.length)) = A := by
  have h12 : GB_n1 A.length + GB_n2 A.length = GB_n12 A.length := by
    simp only [GB_n1, GB_n2, GB_n12]
    omega
  have h123 : GB_n123 A.length = GB_n12 A.length + GB_n3 A.length := rfl
  rw [h123, List.drop_take_append_drop, ← List.take_add, h12,
    List.take_append_drop]

/-- Correctness of GB_mergesort_1, by strong induction on the array
length: the array component of the result is a sorted permutation of the
input array. -/
theorem GB_mergesort_1_aux (n : Nat) : ∀ (bc : Nat) (hbc : 3 ≤ bc)
    (A W : List Int), A.length ≤ n →
    (GB_mergesort_1 bc hbc A W).1.Perm A ∧
      SortedLe (GB_mergesort_1 bc hbc A W).1 := by
  induction n with
  | zero =>
    intro bc hbc A W h
    rw [GB_mergesort_1_base bc hbc A W (by omega)]
    exact ⟨GB_qsort_1a_perm A, GB_qsort_1a_sorted A⟩
  | succ n ih =>
    intro bc hbc A W h
    by_cases hb : A.length ≤ bc
    · rw [GB_mergesort_1_base bc hbc A W hb]
      exact ⟨GB_qsort_1a_perm A, GB_qsort_1a_sorted A⟩
    · rw [GB_mergesort_1_rec bc hbc A W hb]
      have h4 : 4 ≤ A.length := by omega
      have hq1 := ih bc hbc (A.take (GB_n1 A.length)) (W.take (GB_n1 A.length))
        (by simp only [List.length_take, GB_n1, GB_n12]; omega)
      have hq2 := ih bc hbc ((A.drop (GB_n1 A.length)).take (GB_n2 A.length))
        ((W.drop (GB_n1 A.length)).take (GB_n2 A.length))
        (by
          simp only [List.length_take, List.length_drop, GB_n2, GB_n1, GB_n12]
          omega)
      have hq3 := ih bc hbc ((A.drop (GB_n12 A.length)).take (GB_n3 A.length))
        ((W.drop (GB_n12 A.length)).take (GB_n3 A.length))
        (by
          simp only [List.length_take, List.length_drop, GB_n3, GB_n34, GB_n12]
          omega)
      have hq4 := ih bc hbc (A.drop (GB_n123 A.length)) (W.drop (GB_n123 A.length))
        (by
          simp only [List.length_drop, GB_n123, GB_n12, GB_n3, GB_n34]
          omega)
      have hw12 := GB_merge_select_1_correct bc hbc _ _ hq1.2 hq2.2
      have hw34 := GB_merge_select_1_correct bc hbc _ _ hq3.2 hq4.2
      have hfin := GB_merge_select_1_correct bc hbc _ _ hw12.2 hw34.2
      refine ⟨hfin.1.trans ?_, hfin.2⟩
      refine (hw12.1.append hw34.1).trans ?_
      refine ((hq1.1.append hq2.1).append (hq3.1.append hq4.1)).trans ?_
      rw [quarters_append]

/-- The array component of GB_mergesort_1 is a sorted permutation of the
input array, for every workspace. -/
theorem GB_mergesort_1_correct (bc : Nat) (hbc : 3 ≤ bc) (A W : List Int) :
    (GB_mergesort_1 bc hbc A W).1.Perm A ∧
      SortedLe (GB_mergesort_1 bc hbc A W).1 :=
  GB_mergesort_1_aux A.length bc hbc A W le_rfl

/-- The array produced by the parallel mergesort coincides with the array
produced by the base-case sort: both are the unique sorted permutation of
the input. -/
theorem GB_mergesort_1_fst_eq_qsort (bc : Nat) (hbc : 3 ≤ bc) (A W : List Int) :
    (GB_mergesort_1 bc hbc A W).1 = GB_qsort_1a A := by
  have h := GB_mergesort_1_correct bc hbc A W
  exact List.eq_of_perm_of_sorted (h.1.trans (GB_qsort_1a_perm A).symm) h.2
    (GB_qsort_1a_sorted A)

/-- The two parallel branches of the gateway perform the same
GB_mergesort_1 call, so the gateway reduces to a two-way choice. -/
theorem GB_msort_1_eq (bc : Nat) (hbc : 3 ≤ bc) (norm : Int → Int)
    (inPar : Bool) (A W : List Int) (nthreads : Int) :
    GB_msort_1 bc hbc norm inPar A W nthreads =
      if 1 < norm nthreads then GB_mergesort_1 bc hbc A W
      else (GB_qsort_1a A, W) := by
  unfold GB_msort_1
  split_ifs <;> rfl

/-! ### The claims -/

/-- Claim C1: for every int64 array A of length n >= 0, every equal-length
workspace W, and every thread count, after a call to the gateway
GB_msort_1 the array A is in non-decreasing order and holds the same
multiset of values (same length, same value counts) as before the call. -/
theorem C1_msort_sorts (bc : Nat) (hbc : 3 ≤ bc) (norm : Int → Int)
    (inPar : Bool) (A W : List Int) (nthreads : Int)
    (hW : W.length = A.length) :
    SortedLe (GB_msort_1 bc hbc norm inPar A W nthreads).1 ∧
      (GB_msort_1 bc hbc norm inPar A W nthreads).1.Perm A ∧
      (GB_msort_1 bc hbc norm inPar A W nthreads).1.length = A.length ∧
      (∀ v : Int, (GB_msort_1 bc hbc norm inPar A W nthreads).1.count v =
        A.count v) := by
  rw [GB_msort_1_eq]
  split_ifs with h
  · have hc := GB_mergesort_1_correct bc hbc A W
    exact ⟨hc.2, hc.1, hc.1.length_eq, fun v => hc.1.count_eq v⟩
  · exact ⟨GB_qsort_1a_sorted A, GB_qsort_1a_perm A,
      (GB_qsort_1a_perm A).length_eq, fun v => (GB_qsort_1a_perm A).count_eq v⟩

/-- Witness for C1 at a concrete five-element array, four threads. -/
theorem C1_witness :
    (3 : Nat) ≤ 3 ∧
      ([10, 20, 30, 40, 50] : List Int).length =
        ([5, 3, 1, 4, 2] : List Int).length ∧
      (SortedLe (GB_msort_1 3 (le_refl 3) (fun x => x) false
          [5, 3, 1, 4, 2] [10, 20, 30, 40, 50] 4).1 ∧
        (GB_msort_1 3 (le_refl 3) (fun x => x) false
          [5, 3, 1, 4, 2] [10, 20, 30, 40, 50] 4).1.Perm [5, 3, 1, 4, 2] ∧
        (GB_msort_1 3 (le_refl 3) (fun x => x) false
          [5, 3, 1, 4, 2] [10, 20, 30, 40, 50] 4).1.length =
          ([5, 3, 1, 4, 2] : List Int).length ∧
        (∀ v : Int, (GB_msort_1 3 (le_refl 3) (fun x => x) false
          [5, 3, 1, 4, 2] [10, 20, 30, 40, 50] 4).1.count v =
          ([5, 3, 1, 4, 2] : List Int).count v)) :=
  ⟨le_refl 3, rfl, C1_msort_sorts 3 (le_refl 3) (fun x => x) false
    [5, 3, 1, 4, 2] [10, 20, 30, 40, 50] 4 rfl⟩

/-- Claim C2: for every pair of sorted int64 arrays L and R with the
longer one passed as the bigger run, GB_merge_parallel_1 and
GB_merge_sequential_1 write identical outputs: the sorted sequence of
length nleft + nright containing exactly the union multiset of L and R. -/
theorem C2_parallel_eq_sequential (bc : Nat) (hbc : 3 ≤ bc) (L R : List Int)
    (hL : SortedLe L) (hR : SortedLe R) (hlen : R.length ≤ L.length) :
    GB_merge_parallel_1 bc hbc L R = GB_merge_sequential_1 L R ∧
      SortedLe (GB_merge_parallel_1 bc hbc L R) ∧
      (GB_merge_parallel_1 bc hbc L R).length = L.length + R.length ∧
      (GB_merge_parallel_1 bc hbc L R).Perm (L ++ R) := by
  have hp := GB_merge_parallel_1_correct bc hbc L R hL hR
  have hsp := GB_merge_sequential_1_perm L R
  have hss := GB_merge_sequential_1_sorted L R hL hR
  refine ⟨List.eq_of_perm_of_sorted (hp.1.trans hsp.symm) hp.2 hss, hp.2, ?_, hp.1⟩
  have := hp.1.length_eq
  simpa using this

/-- Witness for C2 at the concrete runs [1, 3, 5, 7] and [2, 4, 6]. -/
theorem C2_witness :
    (3 : Nat) ≤ 3 ∧ SortedLe [1, 3, 5, 7] ∧ SortedLe [2, 4, 6] ∧
      ([2, 4, 6] : List Int).length ≤ ([1, 3, 5, 7] : List Int).length ∧
      (GB_merge_parallel_1 3 (le_refl 3) [1, 3, 5, 7] [2, 4, 6] =
          GB_merge_sequential_1 [1, 3, 5, 7] [2, 4, 6] ∧
        SortedLe (GB_merge_parallel_1 3 (le_refl 3) [1, 3, 5, 7] [2, 4, 6]) ∧
        (GB_merge_parallel_1 3 (le_refl 3) [1, 3, 5, 7] [2, 4, 6]).length =
          ([1, 3, 5, 7] : List Int).length + ([2, 4, 6] : List Int).length ∧
        (GB_merge_parallel_1 3 (le_refl 3) [1, 3, 5, 7] [2, 4, 6]).Perm
          ([1, 3, 5, 7] ++ [2, 4, 6])) :=
  ⟨le_refl 3, by decide, by decide, by decide,
    C2_parallel_eq_sequential 3 (le_refl 3) [1, 3, 5, 7] [2, 4, 6]
      (by decide) (by decide) (by decide)⟩

/-- Claim C3: for every sorted int64 array Smaller that contains no
element equal to the pivot key p, the split index k produced by the
binary search plus the final adjustment step satisfies Smaller[i] < p for
all i < k and Smaller[i] >= p for all k <= i < nsmaller. -/
theorem C3_pivot_search_correct (S : List Int) (p : Int)
    (hs : SortedLe S) (hnodup : p ∉ S) :
    (∀ i : Nat, i < GB_split S p → S.getD i 0 < p) ∧
      (∀ i : Nat, GB_split S p ≤ i → i < S.length → p ≤ S.getD i 0) :=
  GB_split_spec S p hs

/-- Witness for C3 at the concrete run [1, 2, 4] with pivot 3. -/
theorem C3_witness :
    SortedLe [1, 2, 4] ∧ (3 : Int) ∉ ([1, 2, 4] : List Int) ∧
      ((∀ i : Nat, i < GB_split [1, 2, 4] 3 →
          ([1, 2, 4] : List Int).getD i 0 < 3) ∧
        (∀ i : Nat, GB_split [1, 2, 4] 3 ≤ i →
          i < ([1, 2, 4] : List Int).length →
          3 ≤ ([1, 2, 4] : List Int).getD i 0)) :=
  ⟨by decide, by decide, C3_pivot_search_correct [1, 2, 4] 3 (by decide) (by decide)⟩

/-- Claim C4: for every sorted run Smaller and every pivot key, the
binary-search loop terminates (GB_search is a total function, proved by
the well-founded recursion at its definition), and at loop exit
pleft = pright or pleft = pright + 1 holds, so the ASSERT never fails;
for the empty run the loop exits immediately with pleft = 0 and
pright = -1. -/
theorem C4_binary_search_exit (S : List Int) (p : Int) :
    (((GB_search S p 0 ((S.length : Int) - 1)).1 : Int) =
        (GB_search S p 0 ((S.length : Int) - 1)).2 ∨
      ((GB_search S p 0 ((S.length : Int) - 1)).1 : Int) =
        (GB_search S p 0 ((S.length : Int) - 1)).2 + 1) ∧
      (S.length = 0 → GB_search S p 0 ((S.length : Int) - 1) = (0, -1)) := by
  have h := GB_search_exit S p 0 ((S.length : Int) - 1) (by omega)
  refine ⟨h.2.2, fun h0 => ?_⟩
  rw [h0]
  rw [GB_search.eq_def, dif_neg (by norm_num)]
  norm_num

/-- Witness for C4 at a nonempty concrete run and at the empty run. -/
theorem C4_witness :
    ((((GB_search [3, 4, 5] 4 0 ((([3, 4, 5] : List Int).length : Int) - 1)).1 : Int) =
        (GB_search [3, 4, 5] 4 0 ((([3, 4, 5] : List Int).length : Int) - 1)).2 ∨
      ((GB_search [3, 4, 5] 4 0 ((([3, 4, 5] : List Int).length : Int) - 1)).1 : Int) =
        (GB_search [3, 4, 5] 4 0 ((([3, 4, 5] : List Int).length : Int) - 1)).2 + 1) ∧
      (([3, 4, 5] : List Int).length = 0 →
        GB_search [3, 4, 5] 4 0 ((([3, 4, 5] : List Int).length : Int) - 1) = (0, -1))) ∧
      (([] : List Int).length = 0 ∧
        GB_search ([] : List Int) 4 0 (((([] : List Int).length : Int)) - 1) = (0, -1)) :=
  ⟨C4_binary_search_exit [3, 4, 5] 4,
    ⟨rfl, (C4_binary_search_exit ([] : List Int) 4).2 rfl⟩⟩

/-- Claim C5: for every n >= 0 the quarter sizes of the fixed halving
rule sum exactly to n and each is within 1 of n / 4; the rule is a
function of n alone, so the partition is data independent by
construction. -/
theorem C5_partition_law (n : Nat) :
    GB_n1 n + GB_n2 n + GB_n3 n + GB_n4 n = n ∧
      GB_n1 n ≤ n / 4 + 1 ∧ n / 4 ≤ GB_n1 n + 1 ∧
      GB_n2 n ≤ n / 4 + 1 ∧ n / 4 ≤ GB_n2 n + 1 ∧
      GB_n3 n ≤ n / 4 + 1 ∧ n / 4 ≤ GB_n3 n + 1 ∧
      GB_n4 n ≤ n / 4 + 1 ∧ n / 4 ≤ GB_n4 n + 1 := by
  simp only [GB_n1, GB_n2, GB_n3, GB_n4, GB_n12, GB_n34]
  omega

/-- Counterexample for C6 as stated: at n = GB_BASECASE (here bc = 3 and
the three-element array [3, 1, 2]) the length is not below the threshold,
yet GB_mergesort_1 still delegates entirely to the base-case sort and
leaves the workspace untouched, while the four-quarter decomposition the
claim demands for this case would have overwritten the workspace with
[3, 1, 2]; the code tests n <= GB_BASECASE, not n < GB_BASECASE. -/
theorem C6_counterexample :
    ¬ (([3, 1, 2] : List Int).length < 3) ∧
      GB_mergesort_1 3 (le_refl 3) [3, 1, 2] [7, 7, 7] =
        (GB_qsort_1a [3, 1, 2], [7, 7, 7]) ∧
      (GB_mergesort_1 3 (le_refl 3) [3, 1, 2] [7, 7, 7]).2 ≠
        GB_merge_select_1 3 (le_refl 3)
            (GB_mergesort_1 3 (le_refl 3)
              (List.take (GB_n1 3) [3, 1, 2]) (List.take (GB_n1 3) [7, 7, 7])).1
            (GB_mergesort_1 3 (le_refl 3)
              ((List.drop (GB_n1 3) [3, 1, 2]).take (GB_n2 3))
              ((List.drop (GB_n1 3) [7, 7, 7]).take (GB_n2 3))).1 ++
          GB_merge_select_1 3 (le_refl 3)
            (GB_mergesort_1 3 (le_refl 3)
              ((List.drop (GB_n12 3) [3, 1, 2]).take (GB_n3 3))
              ((List.drop (GB_n12 3) [7, 7, 7]).take (GB_n3 3))).1
            (GB_mergesort_1 3 (le_refl 3)
              (List.drop (GB_n123 3) [3, 1, 2]) (List.drop (GB_n123 3) [7, 7, 7])).1 := by
  refine ⟨by decide, GB_mergesort_1_base 3 (le_refl 3) [3, 1, 2] [7, 7, 7] (by decide), ?_⟩
  rw [GB_mergesort_1_base 3 (le_refl 3) [3, 1, 2] [7, 7, 7] (by decide)]
  simp only [GB_n1, GB_n2, GB_n3, GB_n12, GB_n123, GB_n34]
  norm_num
  rw [GB_mergesort_1_base 3 (le_refl 3) [] [] (by decide)]
  rw [GB_mergesort_1_base 3 (le_refl 3) [3] [7] (by decide)]
  rw [GB_mergesort_1_base 3 (le_refl 3) [1] [7] (by decide)]
  rw [GB_mergesort_1_base 3 (le_refl 3) [2] [7] (by decide)]
  rw [GB_merge_select_1_seq 3 (le_refl 3) _ _ (by decide)]
  rw [GB_merge_select_1_seq 3 (le_refl 3) _ _ (by decide)]
  simp [GB_merge_sequential_1, GB_qsort_1a, List.insertionSort, List.orderedInsert]

/-- Claim C6 (amended): GB_mergesort_1 delegates entirely to the external
base-case sort GB_qsort_1a exactly when n is at or below the base-case
threshold (the code tests n <= GB_BASECASE, so the boundary n =
GB_BASECASE also delegates), and otherwise performs the four-quarter
recursive decomposition followed by the two pair-merges into W and the
final merge back into A. -/
theorem C6_basecase_dispatch (bc : Nat) (hbc : 3 ≤ bc) (A W : List Int) :
    (A.length ≤ bc → GB_mergesort_1 bc hbc A W = (GB_qsort_1a A, W)) ∧
      (bc < A.length →
        GB_mergesort_1 bc hbc A W =
          (GB_merge_select_1 bc hbc
              (GB_merge_select_1 bc hbc
                (GB_mergesort_1 bc hbc
                  (A.take (GB_n1 A.length)) (W.take (GB_n1 A.length))).1
                (GB_mergesort_1 bc hbc
                  ((A.drop (GB_n1 A.length)).take (GB_n2 A.length))
                  ((W.drop (GB_n1 A.length)).take (GB_n2 A.length))).1)
              (GB_merge_select_1 bc hbc
                (GB_mergesort_1 bc hbc
                  ((A.drop (GB_n12 A.length)).take (GB_n3 A.length))
                  ((W.drop (GB_n12 A.length)).take (GB_n3 A.length))).1
                (GB_mergesort_1 bc hbc
                  (A.drop (GB_n123 A.length)) (W.drop (GB_n123 A.length))).1),
            GB_merge_select_1 bc hbc
                (GB_mergesort_1 bc hbc
                  (A.take (GB_n1 A.length)) (W.take (GB_n1 A.length))).1
                (GB_mergesort_1 bc hbc
                  ((A.drop (GB_n1 A.length)).take (GB_n2 A.length))
                  ((W.drop (GB_n1 A.length)).take (GB_n2 A.length))).1 ++
              GB_merge_select_1 bc hbc
                (GB_mergesort_1 bc hbc
                  ((A.drop (GB_n12 A.length)).take (GB_n3 A.length))
                  ((W.drop (GB_n12 A.length)).take (GB_n3 A.length))).1
                (GB_mergesort_1 bc hbc
                  (A.drop (GB_n123 A.length)) (W.drop (GB_n123 A.length))).1)) :=
  ⟨fun h => GB_mergesort_1_base bc hbc A W h,
    fun h => GB_mergesort_1_rec bc hbc A W (by omega)⟩

/-- Witness for C6 at a concrete array at the boundary length. -/
theorem C6_witness :
    (3 : Nat) ≤ 3 ∧ ([2, 1] : List Int).length ≤ 3 ∧
      GB_mergesort_1 3 (le_refl 3) [2, 1] [9, 9] = (GB_qsort_1a [2, 1], [9, 9]) :=
  ⟨le_refl 3, by decide,
    (C6_basecase_dispatch 3 (le_refl 3) [2, 1] [9, 9]).1 (by decide)⟩

/-- Claim C7: GB_merge_select_1 calls the sequential merge exactly when
nleft + nright is below the base-case threshold, and otherwise calls the
parallel merge with the longer run passed first (swapping when
nright > nleft), so the parallel-merge precondition nbigger >= nsmaller
holds on every call it makes. -/
theorem C7_merge_dispatch (bc : Nat) (hbc : 3 ≤ bc) (L R : List Int) :
    (L.length + R.length < bc →
      GB_merge_select_1 bc hbc L R = GB_merge_sequential_1 L R) ∧
      (bc ≤ L.length + R.length → R.length ≤ L.length →
        GB_merge_select_1 bc hbc L R = GB_merge_parallel_1 bc hbc L R ∧
          R.length ≤ L.length) ∧
      (bc ≤ L.length + R.length → L.length < R.length →
        GB_merge_select_1 bc hbc L R = GB_merge_parallel_1 bc hbc R L ∧
          L.length ≤ R.length) :=
  ⟨fun h => GB_merge_select_1_seq bc hbc L R h,
    fun h h2 => ⟨GB_merge_select_1_par1 bc hbc L R (by omega) h2, h2⟩,
    fun h h2 => ⟨GB_merge_select_1_par2 bc hbc L R (by omega) (by omega), by omega⟩⟩

/-- Witness for C7: a below-threshold pair routed to the sequential merge
and an at-threshold pair routed to the parallel merge. -/
theorem C7_witness :
    ((3 : Nat) ≤ 3 ∧ ([1] : List Int).length + ([2] : List Int).length < 3 ∧
      GB_merge_select_1 3 (le_refl 3) [1] [2] = GB_merge_sequential_1 [1] [2]) ∧
      (3 ≤ ([1, 3] : List Int).length + ([2] : List Int).length + 1 ∧
        GB_merge_select_1 3 (le_refl 3) [1, 3] [2, 4] =
          GB_merge_parallel_1 3 (le_refl 3) [1, 3] [2, 4] ∧
        ([2, 4] : List Int).length ≤ ([1, 3] : List Int).length) :=
  ⟨⟨le_refl 3, by decide, (C7_merge_dispatch 3 (le_refl 3) [1] [2]).1 (by decide)⟩,
    ⟨by decide, (C7_merge_dispatch 3 (le_refl 3) [1, 3] [2, 4]).2.1 (by decide) (by decide)⟩⟩

/-- Claim C8: when the normalized thread count is 1 or less, the gateway
sorts A in place using only the external base-case sort and leaves every
element of the workspace W unchanged. -/
theorem C8_sequential_path (bc : Nat) (hbc : 3 ≤ bc) (norm : Int → Int)
    (inPar : Bool) (A W : List Int) (nthreads : Int)
    (h : norm nthreads ≤ 1) :
    GB_msort_1 bc hbc norm inPar A W nthreads = (GB_qsort_1a A, W) ∧
      (GB_msort_1 bc hbc norm inPar A W nthreads).2 = W := by
  rw [GB_msort_1_eq, if_neg (by omega)]
  exact ⟨rfl, rfl⟩

/-- Witness for C8 with the identity normalization and one thread. -/
theorem C8_witness :
    (3 : Nat) ≤ 3 ∧ (fun x : Int => x) 1 ≤ 1 ∧
      (GB_msort_1 3 (le_refl 3) (fun x => x) false [5, 3, 1] [7, 7, 7] 1 =
          (GB_qsort_1a [5, 3, 1], [7, 7, 7]) ∧
        (GB_msort_1 3 (le_refl 3) (fun x => x) false [5, 3, 1] [7, 7, 7] 1).2 =
          [7, 7, 7]) :=
  ⟨le_refl 3, by norm_num,
    C8_sequential_path 3 (le_refl 3) (fun x => x) false [5, 3, 1] [7, 7, 7] 1
      (by norm_num)⟩

/-- Claim C9: the final contents of A produced by GB_msort_1 are identical
for any two requested thread counts (and any two states of the
parallel-region flag): the sorted array is a deterministic function of
the input contents, independent of the parallel or sequential path. -/
theorem C9_thread_count_independent (bc : Nat) (hbc : 3 ≤ bc)
    (norm : Int → Int) (inPar1 inPar2 : Bool) (A W : List Int)
    (nt1 nt2 : Int) :
    (GB_msort_1 bc hbc norm inPar1 A W nt1).1 =
      (GB_msort_1 bc hbc norm inPar2 A W nt2).1 := by
  rw [GB_msort_1_eq, GB_msort_1_eq]
  split_ifs with h1 h2 h2
  · rfl
  · exact GB_mergesort_1_fst_eq_qsort bc hbc A W
  · exact (GB_mergesort_1_fst_eq_qsort bc hbc A W).symm
  · rfl

/-- Witness for C9: four threads versus one thread on a concrete array. -/
theorem C9_witness :
    (3 : Nat) ≤ 3 ∧
      (GB_msort_1 3 (le_refl 3) (fun x => x) false [5, 3, 1, 4, 2] [0, 0, 0, 0, 0] 4).1 =
        (GB_msort_1 3 (le_refl 3) (fun x => x) false [5, 3, 1, 4, 2] [0, 0, 0, 0, 0] 1).1 :=
  ⟨le_refl 3, C9_thread_count_independent 3 (le_refl 3) (fun x => x) false false
    [5, 3, 1, 4, 2] [0, 0, 0, 0, 0] 4 1⟩

/-- Claim C10: under the preconditions established by the merge dispatch
(nbigger >= nsmaller >= 0, nbigger + nsmaller >= GB_BASECASE >= 1), every
array access of GB_merge_parallel_1 is in bounds: nbigger >= 1 and
nhalf = nbigger / 2 < nbigger so the pivot read is in bounds, the split
index satisfies 0 <= pleft <= nsmaller with pleft = 0 on the empty run,
and the two sub-merge output ranges are disjoint and exactly cover the
nbigger + nsmaller output positions. -/
theorem C10_parallel_merge_inbounds (bc : Nat) (B S : List Int)
    (hbc1 : 1 ≤ bc) (hord : S.length ≤ B.length)
    (htot : bc ≤ B.length + S.length) :
    1 ≤ B.length ∧ B.length / 2 < B.length ∧
      GB_split S (B.getD (B.length / 2) 0) ≤ S.length ∧
      (S.length = 0 → GB_split S (B.getD (B.length / 2) 0) = 0) ∧
      B.length / 2 + GB_split S (B.getD (B.length / 2) 0) ≤
        B.length + S.length ∧
      B.length / 2 + GB_split S (B.getD (B.length / 2) 0) +
        (B.length - B.length / 2 +
          (S.length - GB_split S (B.getD (B.length / 2) 0))) =
        B.length + S.length := by
  have hle := GB_split_le S (B.getD (B.length / 2) 0)
  refine ⟨by omega, by omega, hle,
    fun h0 => GB_split_nil S (B.getD (B.length / 2) 0) h0, by omega, by omega⟩

/-- Witness for C10 at the singleton bigger run and the empty smaller
run, with the smallest positive threshold. -/
theorem C10_witness :
    (1 : Nat) ≤ 1 ∧ ([] : List Int).length ≤ ([5] : List Int).length ∧
      1 ≤ ([5] : List Int).length + ([] : List Int).length ∧
      (1 ≤ ([5] : List Int).length ∧
        ([5] : List Int).length / 2 < ([5] : List Int).length ∧
        GB_split [] (([5] : List Int).getD (([5] : List Int).length / 2) 0) ≤
          ([] : List Int).length ∧
        (([] : List Int).length = 0 →
          GB_split [] (([5] : List Int).getD (([5] : List Int).length / 2) 0) = 0) ∧
        ([5] : List Int).length / 2 +
            GB_split [] (([5] : List Int).getD (([5] : List Int).length / 2) 0) ≤
          ([5] : List Int).length + ([] : List Int).length ∧
        ([5] : List Int).length / 2 +
            GB_split [] (([5] : List Int).getD (([5] : List Int).length / 2) 0) +
            (([5] : List Int).length - ([5] : List Int).length / 2 +
              (([] : List Int).length -
                GB_split [] (([5] : List Int).getD (([5] : List Int).length / 2) 0))) =
          ([5] : List Int).length + ([] : List Int).length) :=
  ⟨le_refl 1, by decide, by decide,
    C10_parallel_merge_inbounds 1 [5] [] (le_refl 1) (by decide) (by decide)⟩
